import Mathlib

set_option maxRecDepth 4000

namespace Gpubsub


/-!
Shallow embedding of the gpubsub daemon (Go): rule-tree evaluation
(`subIf.eval`), command dispatch (`subCommand.perform`,
`subData.receiveMessage`), configuration parsing (`parseSubsConfig`,
`validateSubsConfigIfs`) and the startup control flow (`onStart`).
Machine-level concerns (bytes) are modelled as `Nat` values below 256;
Go maps are modelled as association lists in insertion order.
-/

/-!
## Regular expressions

Model of the RE2 subset relevant here, with Brzozowski-derivative
matching.  `Regex.matchString` models Go's `Regexp.MatchString`, which
reports whether the string CONTAINS a match (unanchored search), while
`Regex.fullMatch` is the anchored whole-string match used to state the
substring-search property.
-/

inductive Regex where
  | emptyset : Regex
  | epsilon : Regex
  | char : Char → Regex
  | anyChar : Regex
  | concat : Regex → Regex → Regex
  | alt : Regex → Regex → Regex
  | star : Regex → Regex
deriving DecidableEq

instance : Inhabited Regex := ⟨Regex.emptyset⟩

def Regex.nullable : Regex → Bool
  | .emptyset => false
  | .epsilon => true
  | .char _ => false
  | .anyChar => false
  | .concat a b => a.nullable && b.nullable
  | .alt a b => a.nullable || b.nullable
  | .star _ => true

def Regex.deriv : Regex → Char → Regex
  | .emptyset, _ => .emptyset
  | .epsilon, _ => .emptyset
  | .char c, x => if c = x then .epsilon else .emptyset
  | .anyChar, _ => .epsilon
  | .concat a b, x =>
    if a.nullable then .alt (.concat (a.deriv x) b) (b.deriv x)
    else .concat (a.deriv x) b
  | .alt a b, x => .alt (a.deriv x) (b.deriv x)
  | .star a, x => .concat (a.deriv x) (.star a)

/-- Anchored match: the regex matches the whole character list. -/
def Regex.fullMatch (r : Regex) (s : List Char) : Bool :=
  (s.foldl Regex.deriv r).nullable

/-- Does the regex match some prefix of the character list? -/
def Regex.matchHere (r : Regex) : List Char → Bool
  | [] => r.nullable
  | c :: rest => r.nullable || (r.deriv c).matchHere rest

/-- Model of Go `Regexp.MatchString`: does the regex match anywhere in
the character list (unanchored substring search)? -/
def Regex.matchString (r : Regex) : List Char → Bool
  | [] => r.nullable
  | c :: rest => r.matchHere (c :: rest) || r.matchString rest

/-!
## Base64

Model of Go `encoding/base64` `StdEncoding` (used for the `var` and
`pipe` delivery modes, and by test-message parsing).  Bytes are `Nat`
values; bit operations of the Go encoder are written as the equivalent
division/modulo arithmetic.  The decoder mirrors `DecodeString`: `\r`
and `\n` are skipped, padding is required, non-alphabet characters are
rejected, trailing padding bits are ignored (non-strict mode).
-/

def base64Alphabet : List Char :=
  "ABCDEFGHIJKLMNOPQRSTUVWXYZabcdefghijklmnopqrstuvwxyz0123456789+/".data

def b64Char (n : Nat) : Char := base64Alphabet.getD n 'A'

def b64IndexAux (c : Char) : List Char → Nat → Option Nat
  | [], _ => none
  | x :: rest, i => if x = c then some i else b64IndexAux c rest (i + 1)

def b64Index (c : Char) : Option Nat := b64IndexAux c base64Alphabet 0

def base64EncodeList : List Nat → List Char
  | b0 :: b1 :: b2 :: rest =>
    b64Char (b0 / 4) :: b64Char ((b0 % 4) * 16 + b1 / 16) ::
      b64Char ((b1 % 16) * 4 + b2 / 64) :: b64Char (b2 % 64) ::
      base64EncodeList rest
  | [b0, b1] =>
    [b64Char (b0 / 4), b64Char ((b0 % 4) * 16 + b1 / 16),
      b64Char ((b1 % 16) * 4), '=']
  | [b0] => [b64Char (b0 / 4), b64Char ((b0 % 4) * 16), '=', '=']
  | [] => []

/-- Model of `base64.StdEncoding.EncodeToString`. -/
def base64Encode (bs : List Nat) : String := ⟨base64EncodeList bs⟩

def base64DecodeGroups : List Char → Option (List Nat)
  | [] => some []
  | c1 :: c2 :: c3 :: c4 :: rest =>
    match b64Index c1, b64Index c2 with
    | some n1, some n2 =>
      if c3 = '=' then
        if c4 = '=' ∧ rest = [] then some [n1 * 4 + n2 / 16] else none
      else
        match b64Index c3 with
        | some n3 =>
          if c4 = '=' then
            if rest = [] then
              some [n1 * 4 + n2 / 16, (n2 % 16) * 16 + n3 / 4]
            else none
          else
            match b64Index c4 with
            | some n4 =>
              (base64DecodeGroups rest).map
                (fun bs => (n1 * 4 + n2 / 16) :: ((n2 % 16) * 16 + n3 / 4) ::
                  ((n3 % 4) * 64 + n4) :: bs)
            | none => none
        | none => none
    | _, _ => none
  | _ => none

/-- Characters skipped by the Go base64 decoder. -/
def notNewline (c : Char) : Bool := c != '\n' && c != '\r'

/-- Model of `base64.StdEncoding.DecodeString`. -/
def base64Decode (s : String) : Option (List Nat) :=
  base64DecodeGroups (s.data.filter notNewline)

/-- UTF-8 encoding of one character (model of Go string-to-byte
conversion). -/
def charUtf8 (c : Char) : List Nat :=
  let n := c.toNat
  if n < 128 then [n]
  else if n < 2048 then [192 + n / 64, 128 + n % 64]
  else if n < 65536 then
    [224 + n / 4096, 128 + (n / 64) % 64, 128 + n % 64]
  else
    [240 + n / 262144, 128 + (n / 4096) % 64, 128 + (n / 64) % 64,
      128 + n % 64]

/-- Raw bytes of a Go string (`[]byte(s)`). -/
def strBytes (s : String) : List Nat := (s.data.map charUtf8).flatten

/-!
## String helpers

`assocFind` models Go map lookup (returning the zero value `""` through
`attrGet` when the key is absent).  `replaceScan` models the observable
behaviour of `strings.NewReplacer(...).Replace`: scan left to right and,
at each position, apply the first pattern of the pair list that matches
there (the `2*len(replaces)` empty pairs the code accidentally prepends
via `make`+`append` have no observable effect and are omitted).
-/

def assocFind {α : Type} (l : List (String × α)) (k : String) : Option α :=
  match l with
  | [] => none
  | (k', v) :: rest => if k' = k then some v else assocFind rest k

/-- Go map read `m[k]` with `""` as zero value for a missing key. -/
def attrGet (attrs : List (String × String)) (k : String) : String :=
  (assocFind attrs k).getD ""

/-- White space as recognized by Go `unicode.IsSpace` (the ASCII and
Latin-1 cases; other Unicode space code points do not occur in the
configuration strings considered here). -/
def isSpaceChar (c : Char) : Bool :=
  c = ' ' || c = '\t' || c = '\n' || c = '\r' ||
    c = '\x0b' || c = '\x0c' || c = '\x85' || c = '\xa0'

/-- Model of `strings.TrimSpace`. -/
def trimSpace (s : String) : String :=
  ⟨((s.data.dropWhile isSpaceChar).reverse.dropWhile isSpaceChar).reverse⟩

def findRep (pairs : List (String × String)) (s : List Char) :
    Option (Nat × String) :=
  match pairs with
  | [] => none
  | (k, v) :: rest =>
    if k.data ≠ [] ∧ k.data.isPrefixOf s then some (k.data.length, v)
    else findRep rest s

/-- One left-to-right replacement pass, with a structural fuel counter
(every step consumes at least one character, so fuel `s.length`
suffices and the fuel-exhausted branch is unreachable). -/
def replaceScanFuel (pairs : List (String × String)) :
    Nat → List Char → List Char
  | 0, s => s
  | fuel + 1, s =>
    match findRep pairs s with
    | some (n, v) => v.data ++ replaceScanFuel pairs fuel (s.drop n)
    | none =>
      match s with
      | [] => []
      | c :: rest => c :: replaceScanFuel pairs fuel rest

def replaceScan (pairs : List (String × String)) (s : List Char) :
    List Char :=
  replaceScanFuel pairs s.length s

/-- Model of `strings.NewReplacer(arr...).Replace(v)`. -/
def replaceAll (pairs : List (String × String)) (s : String) : String :=
  ⟨replaceScan pairs s.data⟩

/-!
## Data model (`service.go`)
-/

structure Message where
  ID : String
  Data : List Nat
  Attributes : List (String × String)
deriving DecidableEq

inductive DataVia where
  | dataViaNone : DataVia
  | dataViaPipe : DataVia
  | dataViaFile : DataVia
  | dataViaVar : DataVia
deriving DecidableEq

open DataVia

inductive SubIfField where
  | subIfFieldNone : SubIfField
  | subIfFieldMetaKey : SubIfField
deriving DecidableEq

open SubIfField

inductive SubIf where
  | mk (FieldType : SubIfField) (FieldName : String) (Pattern : Regex)
      (Command : List String) (Then : List SubIf) : SubIf

def SubIf.FieldType : SubIf → SubIfField
  | .mk ft _ _ _ _ => ft

def SubIf.FieldName : SubIf → String
  | .mk _ fn _ _ _ => fn

def SubIf.Pattern : SubIf → Regex
  | .mk _ _ p _ _ => p

def SubIf.Command : SubIf → List String
  | .mk _ _ _ c _ => c

def SubIf.Then : SubIf → List SubIf
  | .mk _ _ _ _ t => t

mutual

def SubIf.decEq : (x y : SubIf) → Decidable (x = y)
  | .mk a b c d e, .mk a' b' c' d' e' =>
    if h1 : a = a' then
      if h2 : b = b' then
        if h3 : c = c' then
          if h4 : d = d' then
            match SubIf.decEqList e e' with
            | isTrue h5 => isTrue (by rw [h1, h2, h3, h4, h5])
            | isFalse h5 => isFalse (fun hc => by injection hc; contradiction)
          else isFalse (fun hc => by injection hc; contradiction)
        else isFalse (fun hc => by injection hc; contradiction)
      else isFalse (fun hc => by injection hc; contradiction)
    else isFalse (fun hc => by injection hc; contradiction)

def SubIf.decEqList : (xs ys : List SubIf) → Decidable (xs = ys)
  | [], [] => isTrue rfl
  | x :: xs, y :: ys =>
    match SubIf.decEq x y, SubIf.decEqList xs ys with
    | isTrue h1, isTrue h2 => isTrue (by rw [h1, h2])
    | isFalse h1, _ => isFalse (fun hc => by injection hc; contradiction)
    | isTrue _, isFalse h2 => isFalse (fun hc => by injection hc; contradiction)
  | [], _ :: _ => isFalse (fun hc => List.noConfusion hc)
  | _ :: _, [] => isFalse (fun hc => List.noConfusion hc)

end

instance : DecidableEq SubIf := SubIf.decEq

structure SubDataTest where
  Data : String
  Meta : List (String × String)
  Message : Option Message
deriving DecidableEq

structure SubData where
  Sub : String
  Topic : String
  Command : List String
  PassDataVia : DataVia
  Ifs : List SubIf
  Tests : List SubDataTest
deriving DecidableEq

/-!
## Rule-tree evaluation (`subIf.eval`)

The Go function threads a callback that is invoked once per matched
node; the embedding returns the list of `(node, index)` callback
invocations in invocation order.  `evalList` is the `for i, v := range
iff.Then` loop, with `index ++ [i]` modelling
`append(append(index[:0:0], index...), i)`.
-/

mutual

def SubIf.eval : SubIf → Message → List Nat → List (SubIf × List Nat)
  | .mk ft fn pat cmd thens, msg, index =>
    match ft with
    | .subIfFieldNone => []
    | .subIfFieldMetaKey =>
      if pat.matchString (attrGet msg.Attributes fn).data then
        (.mk ft fn pat cmd thens, index) :: SubIf.evalList thens msg index 0
      else []

def SubIf.evalList : List SubIf → Message → List Nat → Nat → List (SubIf × List Nat)
  | [], _, _, _ => []
  | c :: rest, msg, index, i =>
    SubIf.eval c msg (index ++ [i]) ++ SubIf.evalList rest msg index (i + 1)

end

/-- The condition test of one node: the field source resolves (only
meta-key lookup is known) and the pattern matches the resolved value. -/
def matchesNode : SubIf → Message → Bool
  | .mk ft fn pat _ _, msg =>
    match ft with
    | .subIfFieldNone => false
    | .subIfFieldMetaKey => pat.matchString (attrGet msg.Attributes fn).data

/-- Follow a path of child indices down the rule tree. -/
def descend : SubIf → List Nat → Option SubIf
  | iff, [] => some iff
  | iff, i :: p =>
    match iff.Then[i]? with
    | some c => descend c p
    | none => none

/-- Every node along the path (the endpoints included) matches the
message. -/
def pathMatches : SubIf → Message → List Nat → Bool
  | iff, msg, [] => matchesNode iff msg
  | iff, msg, i :: p =>
    matchesNode iff msg &&
      (match iff.Then[i]? with
       | some c => pathMatches c msg p
       | none => false)

/-!
## Dispatcher (`subCommand.perform`, `subData.receiveMessage`)

External effects are made explicit: a `PipeResult` oracle gives the
outcome of opening/writing the child's stdin pipe for each `perform`
invocation (the only failures that make `perform` return early), and a
`fileWriteOk` flag gives the outcome of `ioutil.WriteFile` for the
`file` delivery mode.  The exit status of a spawned process is only
logged by the code, so it does not appear in the model at all.
`Executed` records one spawned process: executable, substituted
arguments, and the data written to its stdin (`none` when no pipe is
used).  `ReceiveResult.attempts` is the ordered list of commands on
which `perform` is invoked; `calls` the processes actually spawned;
`ack` the boolean returned to the receive callback (true = Ack,
false = Nack).
-/

inductive PipeResult where
  | ok : PipeResult
  | openFail : PipeResult
  | writeFail : PipeResult
deriving DecidableEq

structure Executed where
  cmd : String
  args : List String
  stdinData : Option String
deriving DecidableEq

/-- Model of `subCommand.empty`. -/
def subCommandEmpty : List String → Bool
  | [] => true
  | c :: _ => trimSpace c == ""

/-- Model of one `subCommand.perform` call: returns the boolean result
and the process spawned, if any. -/
def performExec (sc : List String) (replaces : List (String × String))
    (passViaPipe : List Nat) (pres : PipeResult) : Bool × Option Executed :=
  if subCommandEmpty sc then (true, none)
  else
    let cmd := trimSpace (sc.headD "")
    let args := sc.tail.map (fun a => replaceAll replaces a)
    if passViaPipe ≠ [] then
      match pres with
      | .openFail => (false, none)
      | .writeFail => (false, none)
      | .ok => (true, some ⟨cmd, args, some (base64Encode passViaPipe)⟩)
    else (true, some ⟨cmd, args, none⟩)

/-- Sequential `perform` invocations; the `i`-th invocation consults the
pipe oracle at `i`.  Results of earlier invocations are never consulted,
mirroring the code, which ignores `perform`'s return value. -/
def performSeq (replaces : List (String × String)) (passViaPipe : List Nat)
    (pr : Nat → PipeResult) : List (List String) → Nat → List Executed
  | [], _ => []
  | c :: rest, i =>
    (performExec c replaces passViaPipe (pr i)).2.toList ++
      performSeq replaces passViaPipe pr rest (i + 1)

/-- Model of `os.TempDir()`. -/
def osTempDir : String := "/tmp"

/-- The temp file path `path.Join(os.TempDir(), "gpubsub_message_"+msg.ID)`. -/
def dataFilePath (msgID : String) : String :=
  osTempDir ++ "/gpubsub_message_" ++ msgID

/-- Model of `strings.ReplaceAll(metak, " ", "_")`. -/
def spaceToUnderscore (s : String) : String :=
  ⟨s.data.map (fun c => if c = ' ' then '_' else c)⟩

/-- The `commandReplaces` map of `receiveMessage`, as an association
list in insertion order: subscription, topic, one entry per message
attribute, and the mode-dependent payload entry. -/
def commandReplaces (sd : SubData) (msg : Message) : List (String × String) :=
  [("GSUB_SUB", sd.Sub), ("GSUB_TOPIC", sd.Topic)]
  ++ msg.Attributes.map (fun kv => ("GSUB_META_" ++ spaceToUnderscore kv.1, kv.2))
  ++ (match sd.PassDataVia with
      | .dataViaFile => [("GSUB_DATA", dataFilePath msg.ID)]
      | .dataViaVar => [("GSUB_DATA", base64Encode msg.Data)]
      | _ => [])

/-- The root-level `for i, iff := range sd.Ifs { iff.eval(msg, []int{i}, cbk) }`
loop: matched nodes of all root trees, in callback-invocation order. -/
def evalRoots (ifs : List SubIf) (msg : Message) : List (SubIf × List Nat) :=
  SubIf.evalList ifs msg [] 0

structure ReceiveResult where
  attempts : List (List String)
  calls : List Executed
  ack : Bool
deriving DecidableEq

/-- Model of `subData.receiveMessage`.  For the `file` mode, a failed
temp-file write aborts processing with a negative result before any
command is performed. -/
def receiveMessage (sd : SubData) (msg : Message) (fileWriteOk : Bool)
    (pr : Nat → PipeResult) : ReceiveResult :=
  if sd.PassDataVia = dataViaFile ∧ fileWriteOk = false then ⟨[], [], false⟩
  else
    let replaces := commandReplaces sd msg
    let passViaPipe := if sd.PassDataVia = dataViaPipe then msg.Data else []
    let attempts :=
      (if subCommandEmpty sd.Command then [] else [sd.Command])
      ++ (evalRoots sd.Ifs msg).map (fun t => t.1.Command)
    ⟨attempts, performSeq replaces passViaPipe pr attempts 0, true⟩

/-!
## Configuration parsing (`config.go`)

The embedding starts from the already-unmarshalled document
(`SubsConfig`); `regexp.Compile` is an abstract parameter
`compile : String → Option Regex`, and `runtime.GOOS` a string
parameter.  `log.Fatal` inside parsing (the rule-validation failure)
is modelled as an error result, since both reject the configuration
and abort startup.
-/

inductive IfConfig where
  | mk (MetaKey : String) (Equal : String) (Command : List String)
      (Then : List IfConfig) : IfConfig

def IfConfig.MetaKey : IfConfig → String
  | .mk mk' _ _ _ => mk'

def IfConfig.Equal : IfConfig → String
  | .mk _ e _ _ => e

def IfConfig.Command : IfConfig → List String
  | .mk _ _ c _ => c

def IfConfig.Then : IfConfig → List IfConfig
  | .mk _ _ _ t => t

structure SubEntry where
  Name : String
  Disable : Bool
  Command : List String
  DataVia : String
  Ifs : List IfConfig
  Tests : List SubDataTest

structure SubsConfig where
  ProjectID : String
  Subscriptions : List SubEntry

mutual

/-- Model of `validateSubsConfigIfs`: builds the `subIf` node and a
validity flag (`gut`); the positional index threaded by the code is
used only for log messages and is omitted. -/
def validateSubsConfigIfs (compile : String → Option Regex) :
    IfConfig → SubIf × Bool
  | .mk metaKey equal cmd thens =>
    let ftg : SubIfField × Bool :=
      if metaKey ≠ "" then (subIfFieldMetaKey, true) else (subIfFieldNone, false)
    let gutPat : Bool := equal ≠ ""
    let rexg : Regex × Bool :=
      match compile equal with
      | some r => (r, true)
      | none => (Regex.emptyset, false)
    let children := validateIfsList compile thens
    (SubIf.mk ftg.1 (if metaKey ≠ "" then metaKey else "") rexg.1 cmd children.1,
      ftg.2 && gutPat && rexg.2 && children.2)

/-- The loop over a list of `if` sections, accumulating the `fail` flag. -/
def validateIfsList (compile : String → Option Regex) :
    List IfConfig → List SubIf × Bool
  | [] => ([], true)
  | v :: rest =>
    let head := validateSubsConfigIfs compile v
    let tail := validateIfsList compile rest
    (head.1 :: tail.1, head.2 && tail.2)

end

/-- Delivery-mode selection of `parseSubsConfig`, including the
Windows downgrade of `pipe` to `var`. -/
def parseDataVia (goos : String) : String → Except String DataVia
  | "" => .ok dataViaVar
  | "var" => .ok dataViaVar
  | "pipe" => .ok (if goos = "windows" then dataViaVar else dataViaPipe)
  | "file" => .ok dataViaFile
  | "none" => .ok dataViaNone
  | other => .error ("invalid data passing method: " ++ other)

/-- The test-message construction loop: each test gets a message whose
payload is the base64 decoding of the literal `data` when that
succeeds, and the raw bytes of the literal otherwise. -/
def processTestsAux (name : String) : Nat → List SubDataTest → List SubDataTest
  | _, [] => []
  | i, t :: rest =>
    { t with Message := some (Message.mk (name ++ "_test_" ++ toString i)
        ((base64Decode t.Data).getD (strBytes t.Data)) t.Meta) }
      :: processTestsAux name (i + 1) rest

def processTests (name : String) (tests : List SubDataTest) : List SubDataTest :=
  processTestsAux name 0 tests

/-- One iteration of the subscription loop of `parseSubsConfig`:
either skips a disabled entry, fails, or appends the parsed
subscription to the accumulator and updates the `hasTests` flag. -/
def parseSubStep (goos : String) (compile : String → Option Regex)
    (e : SubEntry) (subz : List (String × SubData)) (hasTests : Bool) :
    Except String (List (String × SubData) × Bool) :=
  if e.Disable then .ok (subz, hasTests)
  else
    let name := trimSpace e.Name
    if name.utf8ByteSize < 3 ∨ 255 < name.utf8ByteSize then
      .error ("invalid subscription name: " ++ name)
    else
      match parseDataVia goos e.DataVia with
      | .error emsg => .error emsg
      | .ok passDataVia =>
        let ifs := validateIfsList compile e.Ifs
        if ifs.2 = false then .error "Failed to validate ifs section"
        else
          let tests := processTests name e.Tests
          let hasTests' := hasTests || !e.Tests.isEmpty
          if (assocFind subz name).isSome then
            .error ("duplicate subscription: " ++ name)
          else
            .ok (subz ++ [(name,
              { Sub := name, Topic := "", Command := e.Command,
                PassDataVia := passDataVia, Ifs := ifs.1, Tests := tests })],
              hasTests')

def parseSubsLoop (goos : String) (compile : String → Option Regex) :
    List SubEntry → List (String × SubData) → Bool →
    Except String (List (String × SubData) × Bool)
  | [], subz, hasTests => .ok (subz, hasTests)
  | e :: rest, subz, hasTests =>
    match parseSubStep goos compile e subz hasTests with
    | .error emsg => .error emsg
    | .ok (subz', hasTests') => parseSubsLoop goos compile rest subz' hasTests'

/-- Model of `parseSubsConfig` (after yaml unmarshalling): returns the
project id, the subscription map (as an association list in insertion
order) and the `hasTests` flag. -/
def parseSubsConfig (goos : String) (compile : String → Option Regex)
    (cfg : SubsConfig) :
    Except String (String × List (String × SubData) × Bool) :=
  match parseSubsLoop goos compile cfg.Subscriptions [] false with
  | .error emsg => .error emsg
  | .ok (subz, hasTests) =>
    if subz.isEmpty then .error "empty subscriptions list"
    else .ok (cfg.ProjectID, subz, hasTests)

/-!
## Startup control flow (`onStart`)

`RunPlan` records the observable effects of `onStart` after a
successful parse: whether a Pub/Sub client is created, which
subscriptions get an existence/topic check, which messages are fed
directly to `receiveMessage` (test mode; the boolean result is
discarded, so no Ack/Nack happens), and for which subscriptions a live
receive loop (with Ack/Nack per message) is started.
-/

structure RunPlan where
  clientCreated : Bool
  checkedSubs : List String
  testFeeds : List (String × List Message)
  liveSubs : List String
deriving DecidableEq

def onStartPlan (subz : List (String × SubData)) (testing : Bool) : RunPlan :=
  if testing then
    { clientCreated := false
      checkedSubs := []
      testFeeds := subz.map (fun p => (p.2.Sub, p.2.Tests.filterMap (fun t => t.Message)))
      liveSubs := [] }
  else
    { clientCreated := true
      checkedSubs := subz.map (fun p => p.2.Sub)
      testFeeds := []
      liveSubs := subz.map (fun p => p.2.Sub) }

/-- All commands a subscription dispatches in test mode: its test
messages fed through `receiveMessage` in order, acknowledgement
discarded. -/
def testDispatches (sd : SubData) (fileOk : Message → Bool)
    (pr : Message → Nat → PipeResult) : List Executed :=
  ((sd.Tests.filterMap (fun t => t.Message)).map
    (fun m => (receiveMessage sd m (fileOk m) (pr m)).calls)).flatten

/-!
## Visit order

`PathLt` is strict lexicographic order on index paths; the evaluator
emits matched nodes with strictly increasing paths, which is exactly
preorder: every matched node before its children, siblings in list
order.
-/

inductive PathLt : List Nat → List Nat → Prop where
  | nil (b : Nat) (l : List Nat) : PathLt [] (b :: l)
  | head (a b : Nat) (la lb : List Nat) : a < b → PathLt (a :: la) (b :: lb)
  | tail (a : Nat) (la lb : List Nat) : PathLt la lb → PathLt (a :: la) (a :: lb)

/-- An all-successful pipe oracle, for concrete scenarios. -/
def prOk : Nat → PipeResult := fun _ => PipeResult.ok

/-!
## Concrete sample data for witnesses
-/

def sdScenario1 : SubData :=
  { Sub := "s1", Topic := "", Command := ["echo", "GSUB_DATA"],
    PassDataVia := dataViaVar, Ifs := [], Tests := [] }

def msgHello : Message :=
  { ID := "m1", Data := strBytes "hello", Attributes := [] }

def nodeNoMatch : SubIf :=
  SubIf.mk subIfFieldMetaKey "server" (Regex.char 'x') ["cmdP"]
    [SubIf.mk subIfFieldMetaKey "app" (Regex.star Regex.anyChar) ["cmdC"] []]

def msgProd : Message :=
  { ID := "m2", Data := [], Attributes := [("server", "production")] }

def treeScenario2 : SubIf :=
  SubIf.mk subIfFieldMetaKey "server" (Regex.char 's') []
    [SubIf.mk subIfFieldMetaKey "app" (Regex.char 'f') ["cmdA"] [],
     SubIf.mk subIfFieldMetaKey "app" (Regex.char 'b') ["cmdB"] []]

def sdScenario2 : SubData :=
  { Sub := "s2", Topic := "", Command := ["echo", "root"],
    PassDataVia := dataViaNone, Ifs := [treeScenario2], Tests := [] }

def msgStaging : Message :=
  { ID := "m3", Data := [],
    Attributes := [("server", "staging"), ("app", "frontend")] }

def nodeSubstr : SubIf :=
  SubIf.mk subIfFieldMetaKey "k" (Regex.char 'b') [] []

def msgAbc : Message := { ID := "m4", Data := [], Attributes := [("k", "abc")] }

def nodeMissing : SubIf :=
  SubIf.mk subIfFieldMetaKey "absent" (Regex.star Regex.anyChar) ["cmdM"] []

def msgNoAttrs : Message := { ID := "m5", Data := [], Attributes := [] }

def sdMissing : SubData :=
  { Sub := "s5m", Topic := "", Command := [], PassDataVia := dataViaNone,
    Ifs := [nodeMissing], Tests := [] }

/-- The delivery-mode strings the configuration accepts. -/
def validDataViaStr (s : String) : Prop :=
  s = "" ∨ s = "var" ∨ s = "pipe" ∨ s = "file" ∨ s = "none"

instance (s : String) : Decidable (validDataViaStr s) := by
  unfold validDataViaStr
  infer_instance

/-- Rewrite a subscription entry that requests `pipe` delivery to
request `var` instead. -/
def pipeToVarEntry (e : SubEntry) : SubEntry :=
  if e.DataVia = "pipe" then { e with DataVia := "var" } else e

def pipeToVarCfg (cfg : SubsConfig) : SubsConfig :=
  { cfg with Subscriptions := cfg.Subscriptions.map pipeToVarEntry }

/-- A pattern compiler stub for concrete configurations without rules. -/
def compile0 : String → Option Regex := fun _ => some Regex.epsilon

def testA : SubDataTest :=
  { Data := "aGVsbG8=", Meta := [("k", "v")], Message := none }

def entryA : SubEntry :=
  { Name := "subA", Disable := false, Command := ["echo", "x"],
    DataVia := "", Ifs := [], Tests := [testA] }

def entryB : SubEntry :=
  { Name := "subB", Disable := false, Command := [],
    DataVia := "var", Ifs := [], Tests := [] }

def cfgTests : SubsConfig :=
  { ProjectID := "proj", Subscriptions := [entryA, entryB] }

def parsedTests : String × List (String × SubData) × Bool :=
  (parseSubsConfig "linux" compile0 cfgTests).toOption.getD ("", [], false)

def pairDummy : String × SubData :=
  ("", SubData.mk "" "" [] dataViaVar [] [])

def testDummy : SubDataTest := { Data := "", Meta := [], Message := none }

def parsedTestA : SubDataTest :=
  (parsedTests.2.1.headD pairDummy).2.Tests.headD testDummy

theorem Regex.matchHere_iff (s : List Char) (r : Regex) :
    r.matchHere s = true ↔ ∃ p q, s = p ++ q ∧ r.fullMatch p = true := by
  induction s generalizing r with
  | nil =>
    constructor
    · intro h; exact ⟨[], [], rfl, h⟩
    · rintro ⟨p, q, hpq, hf⟩
      obtain ⟨rfl, rfl⟩ := List.append_eq_nil.mp hpq.symm
      exact hf
  | cons c rest ih =>
    simp only [Regex.matchHere, Bool.or_eq_true]
    constructor
    · rintro (h | h)
      · exact ⟨[], c :: rest, rfl, h⟩
      · obtain ⟨p, q, hpq, hf⟩ := (ih _).mp h
        exact ⟨c :: p, q, by simp [hpq], hf⟩
    · rintro ⟨p, q, hpq, hf⟩
      match p, hpq, hf with
      | [], hpq, hf =>
        left; exact hf
      | p0 :: p', hpq, hf =>
        right
        have h1 : c = p0 ∧ rest = p' ++ q := by simpa using hpq
        exact (ih _).mpr ⟨p', q, h1.2, by rw [h1.1]; exact hf⟩

theorem Regex.matchString_iff (s : List Char) (r : Regex) :
    r.matchString s = true ↔
      ∃ l m t, s = l ++ m ++ t ∧ r.fullMatch m = true := by
  induction s with
  | nil =>
    constructor
    · intro h; exact ⟨[], [], [], rfl, h⟩
    · rintro ⟨l, m, t, hlmt, hf⟩
      obtain ⟨hlm, rfl⟩ := List.append_eq_nil.mp hlmt.symm
      obtain ⟨rfl, rfl⟩ := List.append_eq_nil.mp hlm
      exact hf
  | cons c rest ih =>
    simp only [Regex.matchString, Bool.or_eq_true]
    constructor
    · rintro (h | h)
      · obtain ⟨p, q, hpq, hf⟩ := (Regex.matchHere_iff _ _).mp h
        exact ⟨[], p, q, by simp [hpq], hf⟩
      · obtain ⟨l, m, t, hlmt, hf⟩ := ih.mp h
        exact ⟨c :: l, m, t, by simp [hlmt], hf⟩
    · rintro ⟨l, m, t, hlmt, hf⟩
      match l, hlmt with
      | [], hlmt =>
        left
        exact (Regex.matchHere_iff _ _).mpr ⟨m, t, by simpa using hlmt, hf⟩
      | l0 :: l', hlmt =>
        right
        have h1 : c = l0 ∧ rest = l' ++ m ++ t := by simpa using hlmt
        exact ih.mpr ⟨l', m, t, h1.2, hf⟩

theorem b64Index_b64Char_lt : ∀ n < 64, b64Index (b64Char n) = some n := by
  decide

theorem b64Char_ne_pad_lt : ∀ n < 64, b64Char n ≠ '=' := by
  decide

theorem b64Char_nl_lt : ∀ n < 64, b64Char n ≠ '\n' ∧ b64Char n ≠ '\r' := by
  decide

theorem b64Index_b64Char (n : Nat) (h : n < 64) :
    b64Index (b64Char n) = some n := b64Index_b64Char_lt n h

theorem b64Char_big (n : Nat) (h : ¬n < 64) : b64Char n = 'A' := by
  have h64 : base64Alphabet.length ≤ n := by
    have : base64Alphabet.length = 64 := by decide
    omega
  unfold b64Char
  rw [List.getD_eq_default _ _ h64]

theorem b64Char_ne_pad (n : Nat) : b64Char n ≠ '=' := by
  by_cases h : n < 64
  · exact b64Char_ne_pad_lt n h
  · rw [b64Char_big n h]; decide

theorem b64Char_not_newline (n : Nat) :
    (b64Char n ≠ '\n' ∧ b64Char n ≠ '\r') := by
  by_cases h : n < 64
  · exact b64Char_nl_lt n h
  · rw [b64Char_big n h]; decide

theorem base64EncodeList_no_newline (bs : List Nat) (c : Char)
    (hc : c ∈ base64EncodeList bs) : c ≠ '\n' ∧ c ≠ '\r' := by
  induction bs using base64EncodeList.induct with
  | case1 b0 b1 b2 rest ih =>
    simp only [base64EncodeList, List.mem_cons] at hc
    rcases hc with rfl | rfl | rfl | rfl | hc
    · exact b64Char_not_newline _
    · exact b64Char_not_newline _
    · exact b64Char_not_newline _
    · exact b64Char_not_newline _
    · exact ih hc
  | case2 b0 b1 =>
    simp only [base64EncodeList, List.mem_cons] at hc
    rcases hc with rfl | rfl | rfl | rfl | hc
    · exact b64Char_not_newline _
    · exact b64Char_not_newline _
    · exact b64Char_not_newline _
    · decide
    · simp at hc
  | case3 b0 =>
    simp only [base64EncodeList, List.mem_cons] at hc
    rcases hc with rfl | rfl | rfl | rfl | hc
    · exact b64Char_not_newline _
    · exact b64Char_not_newline _
    · decide
    · decide
    · simp at hc
  | case4 =>
    simp [base64EncodeList] at hc

theorem base64DecodeGroups_encode (bs : List Nat)
    (h : ∀ b ∈ bs, b < 256) :
    base64DecodeGroups (base64EncodeList bs) = some bs := by
  induction bs using base64EncodeList.induct with
  | case1 b0 b1 b2 rest ih =>
    have hb0 : b0 < 256 := h b0 (by simp)
    have hb1 : b1 < 256 := h b1 (by simp)
    have hb2 : b2 < 256 := h b2 (by simp)
    have hrest : ∀ b ∈ rest, b < 256 := fun b hb => h b (by simp [hb])
    rw [base64EncodeList]
    rw [base64DecodeGroups]
    rw [b64Index_b64Char _ (by omega), b64Index_b64Char _ (by omega)]
    dsimp only
    rw [if_neg (b64Char_ne_pad _)]
    rw [b64Index_b64Char _ (by omega)]
    dsimp only
    rw [if_neg (b64Char_ne_pad _)]
    rw [b64Index_b64Char _ (by omega)]
    dsimp only
    rw [ih hrest]
    have e0 : (b0 / 4) * 4 + ((b0 % 4) * 16 + b1 / 16) / 16 = b0 := by omega
    have e1 : (((b0 % 4) * 16 + b1 / 16) % 16) * 16 +
        ((b1 % 16) * 4 + b2 / 64) / 4 = b1 := by omega
    have e2 : (((b1 % 16) * 4 + b2 / 64) % 4) * 64 + b2 % 64 = b2 := by omega
    rw [e0, e1, e2]
    rfl
  | case2 b0 b1 =>
    have hb0 : b0 < 256 := h b0 (by simp)
    have hb1 : b1 < 256 := h b1 (by simp)
    rw [base64EncodeList]
    rw [base64DecodeGroups]
    rw [b64Index_b64Char _ (by omega), b64Index_b64Char _ (by omega)]
    dsimp only
    rw [if_neg (b64Char_ne_pad _)]
    rw [b64Index_b64Char _ (by omega)]
    dsimp only
    rw [if_pos rfl, if_pos rfl]
    congr 1
    have e0 : (b0 / 4) * 4 + ((b0 % 4) * 16 + b1 / 16) / 16 = b0 := by omega
    have e1 : (((b0 % 4) * 16 + b1 / 16) % 16) * 16 +
        ((b1 % 16) * 4) / 4 = b1 := by omega
    rw [e0, e1]
  | case3 b0 =>
    have hb0 : b0 < 256 := h b0 (by simp)
    rw [base64EncodeList]
    rw [base64DecodeGroups]
    rw [b64Index_b64Char _ (by omega), b64Index_b64Char _ (by omega)]
    dsimp only
    rw [if_pos rfl, if_pos (by simp)]
    congr 1
    have e0 : (b0 / 4) * 4 + ((b0 % 4) * 16) / 16 = b0 := by omega
    rw [e0]
  | case4 =>
    simp [base64EncodeList, base64DecodeGroups]

/-- Round trip: decoding the standard base64 encoding of a byte list
recovers exactly those bytes. -/
theorem base64_roundtrip (bs : List Nat) (h : ∀ b ∈ bs, b < 256) :
    base64Decode (base64Encode bs) = some bs := by
  have hfilter : (base64EncodeList bs).filter notNewline
      = base64EncodeList bs := by
    apply List.filter_eq_self.mpr
    intro c hc
    have hc2 := base64EncodeList_no_newline bs c hc
    simp [notNewline, hc2.1, hc2.2]
  show base64DecodeGroups ((base64EncodeList bs).filter notNewline) = some bs
  rw [hfilter]
  exact base64DecodeGroups_encode bs h

theorem isPrefixOf_length {l₁ l₂ : List Char}
    (h : l₁.isPrefixOf l₂ = true) : l₁.length ≤ l₂.length := by
  induction l₁ generalizing l₂ with
  | nil => simp
  | cons a t ih =>
    cases l₂ with
    | nil => simp [List.isPrefixOf] at h
    | cons b t2 =>
      simp only [List.isPrefixOf, Bool.and_eq_true] at h
      have := ih h.2
      simp only [List.length_cons]
      omega

theorem findRep_bounds (pairs : List (String × String)) (s : List Char)
    (n : Nat) (v : String) (h : findRep pairs s = some (n, v)) :
    0 < n ∧ n ≤ s.length := by
  induction pairs with
  | nil => simp [findRep] at h
  | cons p rest ih =>
    obtain ⟨k, w⟩ := p
    simp only [findRep] at h
    split at h
    · rename_i hcond
      obtain ⟨hne, hpre⟩ := hcond
      have h1 : k.data.length ≤ s.length := isPrefixOf_length hpre
      have h2 : k.data.length ≠ 0 := fun hz => hne (List.eq_nil_of_length_eq_zero hz)
      obtain ⟨rfl, rfl⟩ : n = k.data.length ∧ v = w := by
        constructor
        · exact (Prod.mk.injEq _ _ _ _ ▸ (Option.some.injEq _ _ ▸ h)).1.symm
        · exact (Prod.mk.injEq _ _ _ _ ▸ (Option.some.injEq _ _ ▸ h)).2.symm
      omega
    · exact ih h

/-!
## Properties of the evaluator
-/

theorem eval_eq (iff : SubIf) (msg : Message) (index : List Nat) :
    SubIf.eval iff msg index =
      if matchesNode iff msg = true
      then (iff, index) :: SubIf.evalList iff.Then msg index 0
      else [] := by
  obtain ⟨ft, fn, pat, cmd, thens⟩ := iff
  cases ft <;> simp [SubIf.eval, matchesNode, SubIf.Then]

theorem evalList_nil (msg : Message) (index : List Nat) (i : Nat) :
    SubIf.evalList [] msg index i = [] := by
  simp [SubIf.evalList]

theorem evalList_cons (c : SubIf) (rest : List SubIf) (msg : Message)
    (index : List Nat) (i : Nat) :
    SubIf.evalList (c :: rest) msg index i =
      SubIf.eval c msg (index ++ [i]) ++ SubIf.evalList rest msg index (i + 1) := by
  simp [SubIf.evalList]

theorem mem_evalList_iff (l : List SubIf) (msg : Message) (index : List Nat)
    (k : Nat) (x : SubIf × List Nat) :
    x ∈ SubIf.evalList l msg index k ↔
      ∃ i c, l[i]? = some c ∧ x ∈ SubIf.eval c msg (index ++ [k + i]) := by
  induction l generalizing k with
  | nil => simp [evalList_nil]
  | cons c rest ih =>
    rw [evalList_cons]
    simp only [List.mem_append]
    constructor
    · rintro (hx | hx)
      · exact ⟨0, c, by simp, by simpa using hx⟩
      · obtain ⟨i, c', hget, hx⟩ := (ih (k + 1)).mp hx
        refine ⟨i + 1, c', by simpa using hget, ?_⟩
        have he : k + (i + 1) = k + 1 + i := by omega
        rw [he]; exact hx
    · rintro ⟨i, c', hget, hx⟩
      match i, hget, hx with
      | 0, hget, hx =>
        left
        obtain rfl : c = c' := by simpa using hget
        simpa using hx
      | i' + 1, hget, hx =>
        right
        refine (ih (k + 1)).mpr ⟨i', c', by simpa using hget, ?_⟩
        have he : k + 1 + i' = k + (i' + 1) := by omega
        rw [he]; exact hx

/-- Subtree-membership induction principle for the nested inductive. -/
theorem SubIf.memInduction (motive : SubIf → Prop)
    (h : ∀ ft fn pat cmd thens, (∀ c ∈ thens, motive c) →
      motive (SubIf.mk ft fn pat cmd thens)) :
    ∀ iff, motive iff
  | .mk ft fn pat cmd thens =>
    h ft fn pat cmd thens (fun c hc => SubIf.memInduction motive h c)
termination_by iff => sizeOf iff
decreasing_by
  have hlt := List.sizeOf_lt_of_mem hc
  simp only [SubIf.mk.sizeOf_spec]
  omega

theorem pathMatches_head (iff : SubIf) (msg : Message) (p : List Nat)
    (h : pathMatches iff msg p = true) : matchesNode iff msg = true := by
  cases p with
  | nil => exact h
  | cons i p' =>
    simp only [pathMatches, Bool.and_eq_true] at h
    exact h.1

/-- Full characterization of the evaluator output: a node is triggered
(its callback invoked) exactly when it sits at some path below the
evaluation root and every node along that path, itself included,
matches the message. -/
theorem mem_eval_char (iff : SubIf) :
    ∀ (msg : Message) (index : List Nat) (x : SubIf × List Nat),
      x ∈ SubIf.eval iff msg index ↔
        ∃ p, x.2 = index ++ p ∧ descend iff p = some x.1 ∧
          pathMatches iff msg p = true := by
  induction iff using SubIf.memInduction with
  | h ft fn pat cmd thens ih =>
    intro msg index x
    obtain ⟨x1, x2⟩ := x
    rw [eval_eq]
    by_cases hm : matchesNode (SubIf.mk ft fn pat cmd thens) msg = true
    · rw [if_pos hm]
      simp only [List.mem_cons]
      constructor
      · rintro (hx | hx)
        · obtain ⟨h1, h2⟩ := Prod.mk.injEq .. ▸ hx
          exact ⟨[], by simp [h2], by simp [descend, h1], by
            simpa [pathMatches] using hm⟩
        · obtain ⟨i, c, hget, hx⟩ :=
            (mem_evalList_iff thens msg index 0 _).mp hx
          simp only [Nat.zero_add] at hx
          obtain ⟨p, hp1, hp2, hp3⟩ :=
            (ih c (List.getElem?_mem hget) msg (index ++ [i]) _).mp hx
          refine ⟨i :: p, ?_, ?_, ?_⟩
          · simpa using hp1
          · simpa [descend, SubIf.Then, hget] using hp2
          · simp only [pathMatches, SubIf.Then, hget, hm, Bool.true_and]
            exact hp3
      · rintro ⟨p, hp1, hp2, hp3⟩
        match p, hp1, hp2, hp3 with
        | [], hp1, hp2, hp3 =>
          left
          simp only [descend, Option.some.injEq] at hp2
          simp only [List.append_nil] at hp1
          simp [hp1, hp2.symm]
        | i :: p', hp1, hp2, hp3 =>
          right
          cases hget : thens[i]? with
          | none =>
            rw [descend] at hp2
            simp [SubIf.Then, hget] at hp2
          | some c =>
            rw [descend] at hp2
            simp only [SubIf.Then, hget] at hp2
            simp only [pathMatches, SubIf.Then, hget, Bool.and_eq_true] at hp3
            refine (mem_evalList_iff thens msg index 0 _).mpr
              ⟨i, c, hget, ?_⟩
            simp only [Nat.zero_add]
            refine (ih c (List.getElem?_mem hget) msg (index ++ [i]) _).mpr
              ⟨p', ?_, hp2, hp3.2⟩
            simpa using hp1
    · rw [if_neg hm]
      simp only [List.not_mem_nil, false_iff, not_exists]
      rintro p ⟨hp1, hp2, hp3⟩
      exact hm (pathMatches_head _ _ _ hp3)

theorem pathLt_append_cons (l : List Nat) (a : Nat) (t : List Nat) :
    PathLt l (l ++ a :: t) := by
  induction l with
  | nil => exact PathLt.nil a t
  | cons x xs ih => exact PathLt.tail x _ _ ih

theorem pathLt_append_lt (l : List Nat) (a b : Nat) (p q : List Nat)
    (h : a < b) : PathLt (l ++ a :: p) (l ++ b :: q) := by
  induction l with
  | nil => exact PathLt.head a b p q h
  | cons x xs ih => exact PathLt.tail x _ _ ih

theorem mem_evalList_path (l : List SubIf) (msg : Message)
    (index : List Nat) (k : Nat) (x : SubIf × List Nat)
    (hx : x ∈ SubIf.evalList l msg index k) :
    ∃ j p, x.2 = index ++ (k + j) :: p := by
  obtain ⟨i, c, hget, hc⟩ := (mem_evalList_iff l msg index k x).mp hx
  obtain ⟨p, hp1, _, _⟩ := (mem_eval_char c msg (index ++ [k + i]) x).mp hc
  exact ⟨i, p, by simpa using hp1⟩

theorem mem_eval_path (iff : SubIf) (msg : Message) (index : List Nat)
    (x : SubIf × List Nat) (hx : x ∈ SubIf.eval iff msg index) :
    ∃ p, x.2 = index ++ p := by
  obtain ⟨p, hp1, _, _⟩ := (mem_eval_char iff msg index x).mp hx
  exact ⟨p, hp1⟩

theorem evalList_pairwise (msg : Message) (l : List SubIf)
    (hall : ∀ c ∈ l, ∀ index,
      List.Pairwise (fun a b => PathLt a.2 b.2) (SubIf.eval c msg index)) :
    ∀ index k,
      List.Pairwise (fun a b => PathLt a.2 b.2) (SubIf.evalList l msg index k) := by
  induction l with
  | nil => intro index k; simp [evalList_nil]
  | cons c rest ih =>
    intro index k
    rw [evalList_cons]
    refine List.pairwise_append.mpr ⟨hall c (by simp) _, ?_, ?_⟩
    · exact ih (fun c' hc' => hall c' (by simp [hc'])) index (k + 1)
    · intro a ha b hb
      obtain ⟨pa, hpa⟩ := mem_eval_path c msg (index ++ [k]) a ha
      obtain ⟨j, pb, hpb⟩ := mem_evalList_path rest msg index (k + 1) b hb
      rw [hpa, hpb]
      have h1 : index ++ [k] ++ pa = index ++ k :: pa := by simp
      rw [h1]
      exact pathLt_append_lt index k (k + 1 + j) pa pb (by omega)

theorem eval_pairwise (iff : SubIf) (msg : Message) :
    ∀ index,
      List.Pairwise (fun a b => PathLt a.2 b.2) (SubIf.eval iff msg index) := by
  induction iff using SubIf.memInduction with
  | h ft fn pat cmd thens ih =>
    intro index
    rw [eval_eq]
    split
    · refine List.pairwise_cons.mpr ⟨?_, ?_⟩
      · intro b hb
        obtain ⟨j, pb, hpb⟩ := mem_evalList_path thens msg index 0 b hb
        rw [hpb]
        exact pathLt_append_cons index (0 + j) pb
      · exact evalList_pairwise msg thens (fun c hc => ih c hc) index 0
    · exact List.Pairwise.nil

/-!
## Lookup and dispatch helper lemmas
-/

theorem assocFind_nil {α : Type} (k : String) :
    assocFind ([] : List (String × α)) k = none := rfl

theorem assocFind_append_right {α : Type} (l1 l2 : List (String × α))
    (k : String) (h : ∀ p ∈ l1, p.1 ≠ k) :
    assocFind (l1 ++ l2) k = assocFind l2 k := by
  induction l1 with
  | nil => simp
  | cons p rest ih =>
    obtain ⟨k', v⟩ := p
    simp only [List.cons_append, assocFind]
    rw [if_neg (h (k', v) (by simp))]
    exact ih (fun q hq => h q (by simp [hq]))

theorem meta_key_ne_data (y : String) : ("GSUB_META_" ++ y) ≠ "GSUB_DATA" := by
  intro h
  have hl := congrArg String.length h
  rw [String.length_append] at hl
  have h1 : "GSUB_META_".length = 10 := by decide
  have h2 : "GSUB_DATA".length = 9 := by decide
  omega

/-- In `var` mode the payload substitution entry holds exactly the
base64 encoding of the raw payload bytes. -/
theorem commandReplaces_var (sd : SubData) (msg : Message)
    (h : sd.PassDataVia = dataViaVar) :
    assocFind (commandReplaces sd msg) "GSUB_DATA" =
      some (base64Encode msg.Data) := by
  unfold commandReplaces
  rw [h]
  rw [List.append_assoc]
  rw [assocFind_append_right]
  · rw [assocFind_append_right]
    · simp [assocFind]
    · intro p hp
      simp only [List.mem_map] at hp
      obtain ⟨kv, _, rfl⟩ := hp
      exact meta_key_ne_data _
  · intro p hp
    simp only [List.mem_cons, List.not_mem_nil, or_false] at hp
    rcases hp with rfl | rfl <;> simp

theorem receiveMessage_eq_pos (sd : SubData) (msg : Message) (fileOk : Bool)
    (pr : Nat → PipeResult)
    (h : ¬(sd.PassDataVia = dataViaFile ∧ fileOk = false)) :
    receiveMessage sd msg fileOk pr =
      ⟨(if subCommandEmpty sd.Command then [] else [sd.Command])
          ++ (evalRoots sd.Ifs msg).map (fun t => t.1.Command),
        performSeq (commandReplaces sd msg)
          (if sd.PassDataVia = dataViaPipe then msg.Data else []) pr
          ((if subCommandEmpty sd.Command then [] else [sd.Command])
            ++ (evalRoots sd.Ifs msg).map (fun t => t.1.Command)) 0,
        true⟩ := by
  unfold receiveMessage
  rw [if_neg h]

theorem receiveMessage_eq_neg (sd : SubData) (msg : Message) (fileOk : Bool)
    (pr : Nat → PipeResult)
    (h : sd.PassDataVia = dataViaFile ∧ fileOk = false) :
    receiveMessage sd msg fileOk pr = ⟨[], [], false⟩ := by
  unfold receiveMessage
  rw [if_pos h]

/-!
## Claims C1-C4, C8, C10
-/

/-- C1: for every message and rule tree, a node of the tree is
evaluated-and-triggered exactly when it and all its ancestors up to the
evaluation root match the message (so a child is only reached when its
parent matched), and when a node does not match, its entire subtree
produces no evaluation at all. -/
theorem claim_C1_no_orphan_evaluation :
    (∀ (iff : SubIf) (msg : Message) (index : List Nat)
        (x : SubIf × List Nat),
      x ∈ SubIf.eval iff msg index ↔
        ∃ p, x.2 = index ++ p ∧ descend iff p = some x.1 ∧
          pathMatches iff msg p = true) ∧
    (∀ (iff : SubIf) (msg : Message) (index : List Nat),
      matchesNode iff msg = false → SubIf.eval iff msg index = []) := by
  constructor
  · exact fun iff msg index x => mem_eval_char iff msg index x
  · intro iff msg index h
    rw [eval_eq, if_neg]
    simp [h]

theorem claim_C1_no_orphan_evaluation_witness :
    matchesNode nodeNoMatch msgProd = false ∧
    SubIf.eval nodeNoMatch msgProd [0] = [] :=
  ⟨by decide,
   claim_C1_no_orphan_evaluation.2 nodeNoMatch msgProd [0] (by decide)⟩

/-- C2: in delivery mode `var` the `GSUB_DATA` substitution entry is
exactly the standard base64 encoding of the raw payload bytes (and
base64 decoding recovers the bytes); for subscription `s1` with root
command `[echo, GSUB_DATA]` and payload `"hello"`, the dispatched
argument is `aGVsbG8=`. -/
theorem claim_C2_var_base64 :
    (∀ (sd : SubData) (msg : Message), sd.PassDataVia = dataViaVar →
      assocFind (commandReplaces sd msg) "GSUB_DATA" =
        some (base64Encode msg.Data)) ∧
    (∀ bs : List Nat, (∀ b ∈ bs, b < 256) →
      base64Decode (base64Encode bs) = some bs) ∧
    (receiveMessage sdScenario1 msgHello true prOk).calls =
      [⟨"echo", ["aGVsbG8="], none⟩] := by
  refine ⟨commandReplaces_var, base64_roundtrip, ?_⟩
  decide

theorem claim_C2_var_base64_witness :
    (sdScenario1.PassDataVia = dataViaVar ∧
      assocFind (commandReplaces sdScenario1 msgHello) "GSUB_DATA" =
        some (base64Encode msgHello.Data)) ∧
    ((∀ b ∈ strBytes "hello", b < 256) ∧
      base64Decode (base64Encode (strBytes "hello")) =
        some (strBytes "hello")) :=
  ⟨⟨rfl, claim_C2_var_base64.1 sdScenario1 msgHello rfl⟩,
   ⟨by decide, claim_C2_var_base64.2.1 (strBytes "hello") (by decide)⟩⟩

/-- C3: the per-message outcome is a positive acknowledgement unless
mode is `file` and the temp-file write failed; the pipe oracle (the
only command-execution failure that is even visible to the caller)
influences neither the acknowledgement nor the sequence of commands on
which `perform` is invoked. -/
theorem claim_C3_ack_outcome :
    ∀ (sd : SubData) (msg : Message) (fileOk : Bool)
      (pr pr' : Nat → PipeResult),
      ((receiveMessage sd msg fileOk pr).ack = false ↔
        sd.PassDataVia = dataViaFile ∧ fileOk = false) ∧
      (receiveMessage sd msg fileOk pr).attempts =
        (receiveMessage sd msg fileOk pr').attempts ∧
      (receiveMessage sd msg fileOk pr).ack =
        (receiveMessage sd msg fileOk pr').ack := by
  intro sd msg fileOk pr pr'
  by_cases h : sd.PassDataVia = dataViaFile ∧ fileOk = false
  · rw [receiveMessage_eq_neg sd msg fileOk pr h,
      receiveMessage_eq_neg sd msg fileOk pr' h]
    simpa using h
  · rw [receiveMessage_eq_pos sd msg fileOk pr h,
      receiveMessage_eq_pos sd msg fileOk pr' h]
    simpa using h

/-- C4: the commands on which `perform` is invoked for one message are
exactly the unconditional root command (when non-empty) followed by
the commands of the matched rule nodes, and the matched nodes come out
in strictly increasing lexicographic path order - preorder: parent
before children, siblings in list order. -/
theorem claim_C4_dispatch_order (sd : SubData) (msg : Message)
    (fileOk : Bool) (pr : Nat → PipeResult)
    (h : ¬(sd.PassDataVia = dataViaFile ∧ fileOk = false)) :
    (receiveMessage sd msg fileOk pr).attempts =
      (if subCommandEmpty sd.Command then [] else [sd.Command])
        ++ (evalRoots sd.Ifs msg).map (fun t => t.1.Command) ∧
    List.Pairwise (fun a b => PathLt a.2 b.2) (evalRoots sd.Ifs msg) := by
  constructor
  · rw [receiveMessage_eq_pos sd msg fileOk pr h]
  · exact evalList_pairwise msg sd.Ifs (fun c _ => eval_pairwise c msg) [] 0

theorem claim_C4_dispatch_order_witness :
    ¬(sdScenario2.PassDataVia = dataViaFile ∧ true = false) ∧
    ((receiveMessage sdScenario2 msgStaging true prOk).attempts =
      (if subCommandEmpty sdScenario2.Command then []
       else [sdScenario2.Command])
        ++ (evalRoots sdScenario2.Ifs msgStaging).map (fun t => t.1.Command) ∧
     List.Pairwise (fun a b => PathLt a.2 b.2)
       (evalRoots sdScenario2.Ifs msgStaging)) :=
  ⟨by decide,
   claim_C4_dispatch_order sdScenario2 msgStaging true prOk (by decide)⟩

/-- C8: a rule node's pattern is tested with unanchored substring
search semantics: the node matches exactly when the pattern fully
matches SOME substring of the resolved attribute value. -/
theorem claim_C8_unanchored (iff : SubIf) (msg : Message)
    (h : iff.FieldType = subIfFieldMetaKey) :
    matchesNode iff msg = true ↔
      ∃ l m t, (attrGet msg.Attributes iff.FieldName).data = l ++ m ++ t ∧
        iff.Pattern.fullMatch m = true := by
  obtain ⟨ft, fn, pat, cmd, thens⟩ := iff
  simp only [SubIf.FieldType] at h
  subst h
  simp only [matchesNode, SubIf.FieldName, SubIf.Pattern]
  exact Regex.matchString_iff _ _

theorem claim_C8_unanchored_witness :
    nodeSubstr.FieldType = subIfFieldMetaKey ∧
    (matchesNode nodeSubstr msgAbc = true ↔
      ∃ l m t,
        (attrGet msgAbc.Attributes nodeSubstr.FieldName).data = l ++ m ++ t ∧
        nodeSubstr.Pattern.fullMatch m = true) ∧
    matchesNode nodeSubstr msgAbc = true ∧
    nodeSubstr.Pattern.fullMatch
      (attrGet msgAbc.Attributes nodeSubstr.FieldName).data = false :=
  ⟨rfl, claim_C8_unanchored nodeSubstr msgAbc rfl, by decide, by decide⟩

/-- C10: when a node's field name is absent from the message's
attribute map, the resolved value is the empty string, so a pattern
matching the empty string makes the node match and its command gets
dispatched although the message has no such attribute. -/
theorem claim_C10_missing_attr (iff : SubIf) (msg : Message)
    (index : List Nat) (sd : SubData) (fileOk : Bool) (pr : Nat → PipeResult)
    (h1 : iff.FieldType = subIfFieldMetaKey)
    (h2 : assocFind msg.Attributes iff.FieldName = none)
    (h3 : iff.Pattern.matchString [] = true)
    (h4 : sd.Ifs = [iff])
    (h5 : ¬(sd.PassDataVia = dataViaFile ∧ fileOk = false)) :
    attrGet msg.Attributes iff.FieldName = "" ∧
    (iff, index) ∈ SubIf.eval iff msg index ∧
    iff.Command ∈ (receiveMessage sd msg fileOk pr).attempts := by
  obtain ⟨ft, fn, pat, cmd, thens⟩ := iff
  simp only [SubIf.FieldType] at h1
  subst h1
  simp only [SubIf.FieldName] at h2 ⊢
  simp only [SubIf.Pattern] at h3
  have hval : attrGet msg.Attributes fn = "" := by
    simp [attrGet, h2]
  have hmatch :
      matchesNode (SubIf.mk subIfFieldMetaKey fn pat cmd thens) msg = true := by
    simp only [matchesNode]
    rw [hval]
    exact h3
  refine ⟨hval, ?_, ?_⟩
  · rw [eval_eq, if_pos hmatch]
    exact List.mem_cons_self _ _
  · rw [receiveMessage_eq_pos sd msg fileOk pr h5, h4]
    simp only [ReceiveResult.attempts]
    apply List.mem_append.mpr
    right
    apply List.mem_map.mpr
    refine ⟨(SubIf.mk subIfFieldMetaKey fn pat cmd thens, [0]), ?_, rfl⟩
    unfold evalRoots
    rw [evalList_cons, evalList_nil]
    apply List.mem_append.mpr
    left
    have h0 : ([] : List Nat) ++ [0] = [0] := rfl
    rw [h0, eval_eq, if_pos hmatch]
    exact List.mem_cons_self _ _

theorem claim_C10_missing_attr_witness :
    (nodeMissing.FieldType = subIfFieldMetaKey ∧
     assocFind msgNoAttrs.Attributes nodeMissing.FieldName = none ∧
     nodeMissing.Pattern.matchString [] = true ∧
     sdMissing.Ifs = [nodeMissing] ∧
     ¬(sdMissing.PassDataVia = dataViaFile ∧ true = false)) ∧
    (attrGet msgNoAttrs.Attributes nodeMissing.FieldName = "" ∧
     (nodeMissing, [0]) ∈ SubIf.eval nodeMissing msgNoAttrs [0] ∧
     nodeMissing.Command ∈
       (receiveMessage sdMissing msgNoAttrs true prOk).attempts) :=
  ⟨⟨rfl, rfl, by decide, rfl, by decide⟩,
   claim_C10_missing_attr nodeMissing msgNoAttrs [0] sdMissing true prOk
     rfl rfl (by decide) rfl (by decide)⟩

/-!
## Parsing lemmas
-/

theorem assocFind_eq_none_iff {α : Type} (l : List (String × α)) (k : String) :
    assocFind l k = none ↔ k ∉ l.map Prod.fst := by
  induction l with
  | nil => simp [assocFind]
  | cons p rest ih =>
    obtain ⟨k', v⟩ := p
    simp only [assocFind, List.map_cons, List.mem_cons]
    by_cases h : k' = k
    · subst h
      simp
    · rw [if_neg h, ih]
      constructor
      · intro hx hk
        rcases hk with hk | hk
        · exact h hk.symm
        · exact hx hk
      · exact fun hx hk => hx (Or.inr hk)

theorem parseDataVia_ok_valid (goos s : String) (pdv : DataVia)
    (h : parseDataVia goos s = .ok pdv) : validDataViaStr s := by
  unfold parseDataVia at h
  split at h <;> simp_all [validDataViaStr]

theorem parseSubStep_ok (goos : String) (compile : String → Option Regex)
    (e : SubEntry) (subz : List (String × SubData)) (ht : Bool)
    (subz' : List (String × SubData)) (ht' : Bool)
    (h : parseSubStep goos compile e subz ht = .ok (subz', ht')) :
    (e.Disable = true ∧ subz' = subz ∧ ht' = ht) ∨
    (e.Disable = false ∧
      3 ≤ (trimSpace e.Name).utf8ByteSize ∧
      (trimSpace e.Name).utf8ByteSize ≤ 255 ∧
      validDataViaStr e.DataVia ∧
      assocFind subz (trimSpace e.Name) = none ∧
      (∃ pdv, parseDataVia goos e.DataVia = .ok pdv ∧
        subz' = subz ++ [(trimSpace e.Name,
          SubData.mk (trimSpace e.Name) "" e.Command pdv
            (validateIfsList compile e.Ifs).1
            (processTests (trimSpace e.Name) e.Tests))]) ∧
      ht' = (ht || !e.Tests.isEmpty)) := by
  unfold parseSubStep at h
  split at h
  · rename_i hdis
    left
    obtain ⟨h1, h2⟩ : subz = subz' ∧ ht = ht' := by simpa using h
    exact ⟨hdis, h1.symm, h2.symm⟩
  · rename_i hdis
    right
    by_cases hlen : (trimSpace e.Name).utf8ByteSize < 3 ∨
        255 < (trimSpace e.Name).utf8ByteSize
    · rw [if_pos hlen] at h
      simp at h
    · rw [if_neg hlen] at h
      push_neg at hlen
      cases hpd : parseDataVia goos e.DataVia with
      | error s => rw [hpd] at h; simp at h
      | ok pdv =>
        rw [hpd] at h
        dsimp only at h
        split at h
        · simp at h
        · split at h
          · simp at h
          · rename_i hifs hdup
            obtain ⟨h1, h2⟩ : subz ++ _ = subz' ∧ (ht || !e.Tests.isEmpty) = ht' := by
              simpa using h
            refine ⟨by simpa using hdis, hlen.1, by omega,
              parseDataVia_ok_valid goos e.DataVia pdv hpd, ?_,
              ⟨pdv, rfl, h1.symm⟩, h2.symm⟩
            rw [← Option.not_isSome_iff_eq_none]
            simpa using hdup

theorem parseSubsLoop_ok_props (goos : String)
    (compile : String → Option Regex) :
    ∀ (entries : List SubEntry) (acc : List (String × SubData)) (ht : Bool)
      (subz : List (String × SubData)) (ht' : Bool),
      parseSubsLoop goos compile entries acc ht = .ok (subz, ht') →
      subz.map Prod.fst = acc.map Prod.fst ++
        (entries.filter (fun e => !e.Disable)).map (fun e => trimSpace e.Name) ∧
      (List.Nodup (acc.map Prod.fst) → List.Nodup (subz.map Prod.fst)) ∧
      (∀ e ∈ entries, e.Disable = false →
        3 ≤ (trimSpace e.Name).utf8ByteSize ∧
        (trimSpace e.Name).utf8ByteSize ≤ 255 ∧ validDataViaStr e.DataVia) ∧
      (∀ p ∈ subz, p ∈ acc ∨
        (3 ≤ p.1.utf8ByteSize ∧ p.1.utf8ByteSize ≤ 255 ∧ p.2.Sub = p.1 ∧
          ∃ tests0, p.2.Tests = processTests p.1 tests0)) ∧
      (ht = true → ht' = true) ∧
      ((∃ e ∈ entries, e.Disable = false ∧ e.Tests ≠ []) → ht' = true) := by
  intro entries
  induction entries with
  | nil =>
    intro acc ht subz ht' h
    simp only [parseSubsLoop] at h
    obtain ⟨h1, h2⟩ : acc = subz ∧ ht = ht' := by simpa using h
    subst h1
    subst h2
    refine ⟨by simp, fun hn => hn, by simp, fun p hp => Or.inl hp,
      fun hh => hh, ?_⟩
    rintro ⟨e, he, -⟩
    simp at he
  | cons e rest ih =>
    intro acc ht subz ht' h
    simp only [parseSubsLoop] at h
    cases hstep : parseSubStep goos compile e acc ht with
    | error s => rw [hstep] at h; simp at h
    | ok pr1 =>
      obtain ⟨acc1, ht1⟩ := pr1
      rw [hstep] at h
      dsimp only at h
      obtain ⟨hI1, hI2, hI3, hI4, hI5, hI6⟩ := ih acc1 ht1 subz ht' h
      rcases parseSubStep_ok goos compile e acc ht acc1 ht1 hstep with
        ⟨hdis, rfl, rfl⟩ |
        ⟨hdis, hb1, hb2, hval, hfind, ⟨pdv, hpdv, rfl⟩, hht⟩
      · refine ⟨?_, hI2, ?_, hI4, hI5, ?_⟩
        · rw [hI1]
          simp [List.filter_cons, hdis]
        · intro e' he' hd'
          rcases List.mem_cons.mp he' with rfl | he'
          · rw [hdis] at hd'; cases hd'
          · exact hI3 e' he' hd'
        · rintro ⟨e', he', hd', htst⟩
          rcases List.mem_cons.mp he' with rfl | he'
          · rw [hdis] at hd'; cases hd'
          · exact hI6 ⟨e', he', hd', htst⟩
      · have hnotin : trimSpace e.Name ∉ acc.map Prod.fst :=
          (assocFind_eq_none_iff acc (trimSpace e.Name)).mp hfind
        refine ⟨?_, ?_, ?_, ?_, ?_, ?_⟩
        · rw [hI1]
          simp [List.filter_cons, hdis]
        · intro hacc
          apply hI2
          simp only [List.map_append, List.map_cons, List.map_nil]
          rw [List.nodup_append]
          refine ⟨hacc, by simp, ?_⟩
          intro a ha hb
          simp only [List.mem_cons, List.not_mem_nil, or_false] at hb
          subst hb
          exact hnotin ha
        · intro e' he' hd'
          rcases List.mem_cons.mp he' with rfl | he'
          · exact ⟨hb1, hb2, hval⟩
          · exact hI3 e' he' hd'
        · intro p hp
          rcases hI4 p hp with hpin | hgood
          · rcases List.mem_append.mp hpin with hpin | hpin
            · exact Or.inl hpin
            · simp only [List.mem_cons, List.not_mem_nil, or_false] at hpin
              subst hpin
              exact Or.inr ⟨hb1, hb2, rfl, e.Tests, rfl⟩
          · exact Or.inr hgood
        · intro hht0
          apply hI5
          rw [hht]
          simp [hht0]
        · rintro ⟨e', he', hd', htst⟩
          rcases List.mem_cons.mp he' with rfl | he'
          · apply hI5
            rw [hht]
            have : e'.Tests.isEmpty = false := by
              cases hx : e'.Tests with
              | nil => exact absurd hx htst
              | cons a b => simp
            simp [this]
          · exact hI6 ⟨e', he', hd', htst⟩

theorem parseSubStep_pipeToVar (compile : String → Option Regex)
    (e : SubEntry) (subz : List (String × SubData)) (ht : Bool) :
    parseSubStep "windows" compile (pipeToVarEntry e) subz ht =
      parseSubStep "windows" compile e subz ht := by
  obtain ⟨nm, dis, cmd, dv, ifs, tests⟩ := e
  unfold pipeToVarEntry
  by_cases h : SubEntry.DataVia ⟨nm, dis, cmd, dv, ifs, tests⟩ = "pipe"
  · rw [if_pos h]
    simp only [SubEntry.DataVia] at h
    subst h
    have hdv : parseDataVia "windows" "var" = parseDataVia "windows" "pipe" := rfl
    unfold parseSubStep
    dsimp only
    rw [hdv]
  · rw [if_neg h]

theorem parseSubsLoop_pipeToVar (compile : String → Option Regex)
    (entries : List SubEntry) :
    ∀ (subz : List (String × SubData)) (ht : Bool),
      parseSubsLoop "windows" compile (entries.map pipeToVarEntry) subz ht =
        parseSubsLoop "windows" compile entries subz ht := by
  induction entries with
  | nil => intro subz ht; rfl
  | cons e rest ih =>
    intro subz ht
    simp only [List.map_cons, parseSubsLoop]
    rw [parseSubStep_pipeToVar]
    cases parseSubStep "windows" compile e subz ht with
    | error s => rfl
    | ok p =>
      obtain ⟨subz', ht'⟩ := p
      exact ih subz' ht'

theorem processTestsAux_message (name : String) :
    ∀ (i : Nat) (tests : List SubDataTest) (t : SubDataTest),
      t ∈ processTestsAux name i tests →
      t.Message.map Message.Data =
        some ((base64Decode t.Data).getD (strBytes t.Data)) ∧
      t.Message.map Message.Attributes = some t.Meta := by
  intro i tests
  induction tests generalizing i with
  | nil =>
    intro t ht
    simp [processTestsAux] at ht
  | cons t0 rest ih =>
    intro t ht
    simp only [processTestsAux, List.mem_cons] at ht
    rcases ht with rfl | ht
    · exact ⟨rfl, rfl⟩
    · exact ih (i + 1) t ht

/-!
## Claims C5, C6, C7, C9
-/

/-- C5: as soon as any enabled subscription carries test messages,
parsing reports `hasTests` and the run is offline: no Pub/Sub client,
no existence/topic check, no live receive loop; every subscription's
test messages are fed directly to `receiveMessage` (acknowledgement
bypassed), and a subscription without tests feeds nothing and
dispatches no commands. -/
theorem claim_C5_test_mode (goos : String) (compile : String → Option Regex)
    (cfg : SubsConfig) (proj : String) (subz : List (String × SubData))
    (testing : Bool)
    (h : parseSubsConfig goos compile cfg = .ok (proj, subz, testing))
    (htest : ∃ e ∈ cfg.Subscriptions, e.Disable = false ∧ e.Tests ≠ []) :
    testing = true ∧
    (onStartPlan subz testing).clientCreated = false ∧
    (onStartPlan subz testing).checkedSubs = [] ∧
    (onStartPlan subz testing).liveSubs = [] ∧
    (onStartPlan subz testing).testFeeds =
      subz.map (fun p => (p.2.Sub, p.2.Tests.filterMap (fun t => t.Message))) ∧
    (∀ p ∈ subz, p.2.Tests = [] →
      ∀ (fileOk : Message → Bool) (pr : Message → Nat → PipeResult),
        testDispatches p.2 fileOk pr = []) := by
  unfold parseSubsConfig at h
  cases hloop : parseSubsLoop goos compile cfg.Subscriptions [] false with
  | error s => rw [hloop] at h; simp at h
  | ok pr0 =>
    obtain ⟨subz0, ht0⟩ := pr0
    rw [hloop] at h
    dsimp only at h
    split at h
    · simp at h
    · have hinj := h
      rw [Except.ok.injEq, Prod.mk.injEq, Prod.mk.injEq] at hinj
      obtain ⟨-, h2, h3⟩ := hinj
      rw [← h2, ← h3]
      have hprops := parseSubsLoop_ok_props goos compile cfg.Subscriptions
        [] false subz0 ht0 hloop
      have htt : ht0 = true := hprops.2.2.2.2.2 htest
      subst htt
      refine ⟨rfl, by simp [onStartPlan], by simp [onStartPlan],
        by simp [onStartPlan], by simp [onStartPlan], ?_⟩
      intro p _ hp0 fileOk pr
      simp [testDispatches, hp0]

theorem claim_C5_test_mode_witness :
    parseSubsConfig "linux" compile0 cfgTests =
      .ok (parsedTests.1, parsedTests.2.1, parsedTests.2.2) ∧
    parsedTests.2.2 = true ∧
    (onStartPlan parsedTests.2.1 parsedTests.2.2).clientCreated = false ∧
    (onStartPlan parsedTests.2.1 parsedTests.2.2).checkedSubs = [] ∧
    (onStartPlan parsedTests.2.1 parsedTests.2.2).liveSubs = [] :=
  have hmain := claim_C5_test_mode "linux" compile0 cfgTests parsedTests.1
    parsedTests.2.1 parsedTests.2.2 rfl
    ⟨entryA, by simp [cfgTests], rfl, by decide⟩
  ⟨rfl, hmain.1, hmain.2.1, hmain.2.2.1, hmain.2.2.2.1⟩

/-- C6: a successfully parsed configuration has pairwise-distinct
subscription keys within the length bounds, every enabled entry has a
valid (trimmed) name length and a valid delivery-mode string, the
enabled entries' trimmed names are pairwise distinct, and at least one
entry is enabled - equivalently, parsing fails whenever any of these
conditions is violated. -/
theorem claim_C6_config_validation (goos : String)
    (compile : String → Option Regex) (cfg : SubsConfig) (proj : String)
    (subz : List (String × SubData)) (ht : Bool)
    (h : parseSubsConfig goos compile cfg = .ok (proj, subz, ht)) :
    List.Nodup (subz.map Prod.fst) ∧
    (∀ p ∈ subz, 3 ≤ p.1.utf8ByteSize ∧ p.1.utf8ByteSize ≤ 255) ∧
    (∀ e ∈ cfg.Subscriptions, e.Disable = false →
      3 ≤ (trimSpace e.Name).utf8ByteSize ∧
      (trimSpace e.Name).utf8ByteSize ≤ 255 ∧ validDataViaStr e.DataVia) ∧
    List.Nodup ((cfg.Subscriptions.filter (fun e => !e.Disable)).map
      (fun e => trimSpace e.Name)) ∧
    cfg.Subscriptions.filter (fun e => !e.Disable) ≠ [] := by
  unfold parseSubsConfig at h
  cases hloop : parseSubsLoop goos compile cfg.Subscriptions [] false with
  | error s => rw [hloop] at h; simp at h
  | ok pr0 =>
    obtain ⟨subz0, ht0⟩ := pr0
    rw [hloop] at h
    dsimp only at h
    split at h
    · simp at h
    · rename_i hne
      have hinj := h
      rw [Except.ok.injEq, Prod.mk.injEq, Prod.mk.injEq] at hinj
      obtain ⟨-, h2, -⟩ := hinj
      rw [← h2]
      obtain ⟨hk, hnd, hentries, hgood, -, -⟩ :=
        parseSubsLoop_ok_props goos compile cfg.Subscriptions
          [] false subz0 ht0 hloop
      simp only [List.map_nil, List.nil_append] at hk hnd
      have hnodup : List.Nodup (subz0.map Prod.fst) := hnd (by simp)
      refine ⟨hnodup, ?_, hentries, by rw [← hk]; exact hnodup, ?_⟩
      · intro p hp
        rcases hgood p hp with hin | hg
        · simp at hin
        · exact ⟨hg.1, hg.2.1⟩
      · intro hnil
        have hmk : subz0.map Prod.fst = [] := by rw [hk, hnil]; simp
        have hsz : subz0 = [] := by simpa using hmk
        rw [hsz] at hne
        simp at hne

theorem claim_C6_config_validation_witness :
    parseSubsConfig "linux" compile0 cfgTests =
      .ok (parsedTests.1, parsedTests.2.1, parsedTests.2.2) ∧
    (List.Nodup (parsedTests.2.1.map Prod.fst) ∧
     (∀ p ∈ parsedTests.2.1,
        3 ≤ p.1.utf8ByteSize ∧ p.1.utf8ByteSize ≤ 255) ∧
     cfgTests.Subscriptions.filter (fun e => !e.Disable) ≠ []) :=
  have hmain := claim_C6_config_validation "linux" compile0 cfgTests
    parsedTests.1 parsedTests.2.1 parsedTests.2.2 rfl
  ⟨rfl, hmain.1, hmain.2.1, hmain.2.2.2.2⟩

/-- C7: on Windows, requesting `pipe` delivery parses to exactly the
same subscription data as requesting `var` (rewriting every `pipe`
entry to `var` leaves the parse result unchanged), so all downstream
behaviour - in particular dispatch with the base64 payload
substitution and no stdin write - is identical. -/
theorem claim_C7_pipe_downgrade (compile : String → Option Regex)
    (cfg : SubsConfig) :
    parseSubsConfig "windows" compile (pipeToVarCfg cfg) =
      parseSubsConfig "windows" compile cfg ∧
    parseDataVia "windows" "pipe" = Except.ok dataViaVar := by
  constructor
  · unfold parseSubsConfig pipeToVarCfg
    dsimp only
    rw [parseSubsLoop_pipeToVar]
  · rfl

/-- C9: every configured test message gets a payload obtained by first
attempting standard base64 decoding of the literal text, falling back
to the literal's raw bytes; its attributes are the configured map.
Concretely, `aGVsbG8=` decodes to the bytes of `hello`, while `test1`
is not valid base64 and is used raw. -/
theorem claim_C9_test_payload (goos : String)
    (compile : String → Option Regex) (cfg : SubsConfig) (proj : String)
    (subz : List (String × SubData)) (ht : Bool)
    (h : parseSubsConfig goos compile cfg = .ok (proj, subz, ht)) :
    (∀ p ∈ subz, ∀ t ∈ p.2.Tests,
      t.Message.map Message.Data =
        some ((base64Decode t.Data).getD (strBytes t.Data)) ∧
      t.Message.map Message.Attributes = some t.Meta) ∧
    base64Decode "aGVsbG8=" = some (strBytes "hello") ∧
    base64Decode "test1" = none := by
  refine ⟨?_, by decide, by decide⟩
  unfold parseSubsConfig at h
  cases hloop : parseSubsLoop goos compile cfg.Subscriptions [] false with
  | error s => rw [hloop] at h; simp at h
  | ok pr0 =>
    obtain ⟨subz0, ht0⟩ := pr0
    rw [hloop] at h
    dsimp only at h
    split at h
    · simp at h
    · have hinj := h
      rw [Except.ok.injEq, Prod.mk.injEq, Prod.mk.injEq] at hinj
      obtain ⟨-, h2, -⟩ := hinj
      rw [← h2]
      obtain ⟨-, -, -, hgood, -, -⟩ :=
        parseSubsLoop_ok_props goos compile cfg.Subscriptions
          [] false subz0 ht0 hloop
      intro p hp t htmem
      rcases hgood p hp with hin | ⟨-, -, -, tests0, htests⟩
      · simp at hin
      · rw [htests] at htmem
        exact processTestsAux_message p.1 0 tests0 t htmem

theorem claim_C9_test_payload_witness :
    parseSubsConfig "linux" compile0 cfgTests =
      .ok (parsedTests.1, parsedTests.2.1, parsedTests.2.2) ∧
    (parsedTestA.Message.map Message.Data =
       some ((base64Decode parsedTestA.Data).getD (strBytes parsedTestA.Data)) ∧
     parsedTestA.Message.map Message.Attributes = some parsedTestA.Meta) :=
  have hmain := claim_C9_test_payload "linux" compile0 cfgTests parsedTests.1
    parsedTests.2.1 parsedTests.2.2 rfl
  have hp : parsedTests.2.1.headD pairDummy ∈ parsedTests.2.1 := by decide
  have htm : parsedTestA ∈ (parsedTests.2.1.headD pairDummy).2.Tests := by
    decide
  ⟨rfl, hmain.1 (parsedTests.2.1.headD pairDummy) hp parsedTestA htm⟩

end Gpubsub
